import Mathlib

/-!
Shallow embedding of the directory ingestion and search engine of
`src/ocfl.py` (functions `_load_directory`, `_load_directory_by_category`,
`_fuzzy_search`, `_regex_search`, `_directory_browse`) together with proofs
about the claims of the specification.

Conventions of the embedding:
* Python strings are `List Char`; documents are the raw text, lines are the
  result of `str.split("\n")`.
* Python regular expressions are translated to explicit scanning functions
  with the exact leftmost/greedy/lazy backtracking semantics of the patterns
  used by the source (restricted to ASCII classes: the source documents are
  ASCII markdown).
* Scores computed by the source in IEEE floating point are modelled exactly
  in `ℚ` (every score is a small rational; the comparisons of the claims are
  robust).
* The two external collaborators (`thefuzz.fuzz.token_set_ratio` and
  `re.compile` inside `_regex_search`) are parameters of the embedding, as
  the specification scopes them out as collaborator interfaces.
* Cache files are modelled by their observable state: presence, age in
  seconds relative to `time.time()`, and deserialized payload (`none` for
  content on which `json.loads` raises).
-/

namespace OCFL

abbrev Str := List Char

/-- Characters of Python's ASCII `\s` class, also the set stripped by
`str.strip()` and split on by `str.split()`. -/
def isWsC (c : Char) : Bool :=
  c == ' ' || c == '\t' || c == '\n' || c == '\r' || c == '\x0b' || c == '\x0c'

/-- Python `str.strip()`. -/
def pyStrip (s : Str) : Str :=
  ((s.dropWhile isWsC).reverse.dropWhile isWsC).reverse

/-- Python `str.strip("*")`. -/
def stripStars (s : Str) : Str :=
  ((s.dropWhile (· == '*')).reverse.dropWhile (· == '*')).reverse

/-- Python `str.lower()` (ASCII). -/
def pyLower (s : Str) : Str := s.map Char.toLower

/-- Python `needle in hay` substring test. -/
def strIn (n : Str) : Str → Bool
  | [] => n.isEmpty
  | c :: t => n.isPrefixOf (c :: t) || strIn n t

/-- Split a string at every character satisfying `p`, keeping empty pieces,
as Python `str.split(sep)` does for a one-character separator. -/
def splitP (p : Char → Bool) : Str → List Str
  | [] => [[]]
  | c :: t =>
    if p c then [] :: splitP p t
    else
      match splitP p t with
      | [] => [[c]]
      | h :: r => (c :: h) :: r

/-- Python `str.split("\n")`. -/
def splitLines (s : Str) : List Str := splitP (fun c => c == '\n') s

/-- Python `"\n".join(lines)`. -/
def joinLines (ls : List Str) : Str := List.intercalate ['\n'] ls

/-- Python whitespace `str.split()`: split on whitespace runs, no empties. -/
def splitWs (s : Str) : List Str :=
  (splitP isWsC s).filter (fun w => !w.isEmpty)

/-- The cell list `[p.strip().strip("*") for p in line.split("|")[1:-1]]`. -/
def pipeCells (line : Str) : List Str :=
  (((splitP (fun c => c == '|') line).drop 1).dropLast).map
    (fun p => stripStars (pyStrip p))

/-- Take exactly `n` ASCII digits from the front, as `\d{n}`. -/
def takeDigits : Nat → Str → Option (Str × Str)
  | 0, s => some ([], s)
  | _ + 1, [] => none
  | n + 1, c :: t =>
    if c.isDigit then (takeDigits n t).map (fun p => (c :: p.1, p.2)) else none

/-- Match `\((\d{3})\)\s*(\d{3})-(\d{4})` anchored at the front of `s`; on
success return the source's normalized rendering `f"({g1}) {g2}-{g3}"` and
the remaining input after the match. -/
def phoneHere (s : Str) : Option (Str × Str) :=
  match s with
  | '(' :: r1 =>
    match takeDigits 3 r1 with
    | some (d1, ')' :: r2) =>
      match takeDigits 3 (r2.dropWhile isWsC) with
      | some (d2, '-' :: r4) =>
        match takeDigits 4 r4 with
        | some (d3, r5) =>
          some ('(' :: (d1 ++ [')', ' '] ++ d2 ++ ['-'] ++ d3), r5)
        | none => none
      | _ => none
    | _ => none
  | _ => none

/-- `re.search` of the phone pattern: formatted first match. -/
def findPhone : Str → Option Str
  | [] => none
  | c :: t =>
    match phoneHere (c :: t) with
    | some (f, _) => some f
    | none => findPhone t

/-- One step of `re.findall` of the phone pattern (fueled scan; the fuel
`s.length` always suffices because every step consumes at least one
character). -/
def findAllPhonesAux : Nat → Str → List Str
  | 0, _ => []
  | _ + 1, [] => []
  | fuel + 1, c :: t =>
    match phoneHere (c :: t) with
    | some (f, rest) => f :: findAllPhonesAux fuel rest
    | none => findAllPhonesAux fuel t

/-- `re.findall(r'\((\d{3})\)\s*(\d{3})-(\d{4})', s)`, each match rendered
as the source renders it. -/
def findAllPhones (s : Str) : List Str := findAllPhonesAux s.length s

/-- ASCII `\w`. -/
def isWordC (c : Char) : Bool := c.isAlphanum || c == '_'

/-- The class `[\w.+-]`. -/
def isLocalC (c : Char) : Bool := isWordC c || c == '.' || c == '+' || c == '-'

/-- The class `[\w-]`. -/
def isDomC (c : Char) : Bool := isWordC c || c == '-'

/-- The class `[\w.-]`. -/
def isDomDotC (c : Char) : Bool := isWordC c || c == '.' || c == '-'

/-- Match `[\w.+-]+@[\w-]+\.[\w.-]+` anchored at the front (the pattern is
backtracking-free: each class excludes the following literal). -/
def emailHere (s : Str) : Option (Str × Str) :=
  match s.span isLocalC with
  | (l1, '@' :: r2) =>
    if l1.isEmpty then none
    else
      match r2.span isDomC with
      | (l2, '.' :: r4) =>
        if l2.isEmpty then none
        else
          match r4.span isDomDotC with
          | (l3, r5) =>
            if l3.isEmpty then none
            else some (l1 ++ '@' :: l2 ++ '.' :: l3, r5)
      | _ => none
  | _ => none

/-- `re.search` of the email pattern: first match. -/
def findEmail : Str → Option Str
  | [] => none
  | c :: t =>
    match emailHere (c :: t) with
    | some (e, _) => some e
    | none => findEmail t

/-- Match `https?://[^...]+` anchored at the front, with `excl` the extra
characters excluded by the particular pattern beside whitespace. -/
def urlHere (excl : Char → Bool) (s : Str) : Option (Str × Str) :=
  if ("https://".toList).isPrefixOf s then
    match (s.drop 8).span (fun c => !isWsC c && !excl c) with
    | (run, r2) =>
      if run.isEmpty then none else some ("https://".toList ++ run, r2)
  else if ("http://".toList).isPrefixOf s then
    match (s.drop 7).span (fun c => !isWsC c && !excl c) with
    | (run, r2) =>
      if run.isEmpty then none else some ("http://".toList ++ run, r2)
  else none

/-- `re.search` of a URL pattern: first match. -/
def findUrl (excl : Char → Bool) : Str → Option Str
  | [] => none
  | c :: t =>
    match urlHere excl (c :: t) with
    | some (u, _) => some u
    | none => findUrl excl t

/-- Exclusion class of `https?://[^\s\)]+` (flat extractor). -/
def exclFlat (c : Char) : Bool := c == ')'

/-- Exclusion class of `https?://[^\s\)\]]+` (categorized scan and bullet
fallback). -/
def exclCat (c : Char) : Bool := c == ')' || c == ']'

/-- Exclusion class of `https?://[^\s\)\|]+` (table fallback). -/
def exclTable (c : Char) : Bool := c == ')' || c == '|'

/-- The literal `**Address:**`. -/
def addrMarker : Str := "**Address:**".toList

/-- `re.match(r'.*\*\*Address:\*\*\s*(.+)', line)`: the greedy `.*`
backtracks from the right, so the match uses the last occurrence of the
marker that is followed by at least one character. -/
def addrFind : Str → Option Str
  | [] => none
  | c :: t =>
    match addrFind t with
    | some r => some r
    | none =>
      if addrMarker.isPrefixOf (c :: t) && !((c :: t).drop 12).isEmpty then
        some ((c :: t).drop 12)
      else none

/-- `group(1).strip()` of the address match: equals the stripped text after
the marker occurrence chosen by `addrFind`. -/
def addrValue (line : Str) : Option Str := (addrFind line).map pyStrip

/-- A directory entry. The source uses string-keyed dicts; flat table
entries carry only `name` and `phone` and every read of the other keys goes
through `.get(k, "")`, so absent keys are identified with `""`. -/
structure Entry where
  name : Str
  phone : Str
  email : Str
  url : Str
  address : Str
deriving DecidableEq, Repr, Inhabited

/-- The literal `Complete Phone Directory`. -/
def cpdMark : Str := "Complete Phone Directory".toList

/-- The literal `---`. -/
def dashMark : Str := "---".toList

/-- The literal `Department`. -/
def deptMark : Str := "Department".toList

/-- One line of the flat extractor's phone-table pass, threading the
`in_phone_table` flag (which, in the source, is never reset once set). -/
def flatTableStep (st : Bool × List Entry) (line : Str) : Bool × List Entry :=
  if strIn cpdMark line then (true, st.2)
  else if st.1 && (['|'] : Str).isPrefixOf line && !strIn dashMark line
      && !strIn deptMark line then
    match pipeCells line with
    | a :: b :: _ => (st.1, st.2 ++ [⟨a, b, [], [], []⟩])
    | _ => st
  else st

/-- Entries of the flat extractor's phone-table pass. -/
def flatTableEntries (lines : List Str) : List Entry :=
  (lines.foldl flatTableStep (false, [])).2

/-- The literal `\n###`. -/
def secTermA : Str := "\n###".toList

/-- The literal `\n---`. -/
def secTermB : Str := "\n---".toList

/-- The literal `### `. -/
def secStart : Str := "### ".toList

/-- Lazy capture of `(.+?)(?=\n###|\n---|\Z)` after at least one character
has been consumed: extend until a terminator or the end of input. -/
def captureSec : Str → Str → Str × Str
  | acc, [] => (acc.reverse, [])
  | acc, c :: t =>
    if secTermA.isPrefixOf (c :: t) || secTermB.isPrefixOf (c :: t) then
      (acc.reverse, c :: t)
    else captureSec (c :: acc) t

/-- `re.findall(r'### (.+?)(?=\n###|\n---|\Z)', text, re.DOTALL)`: scan for
`### ` anywhere (the pattern is unanchored), capture lazily, continue after
each match. Fueled by the input length, which always suffices since every
step consumes at least one character. -/
def findSectionsAux : Nat → Str → List Str
  | 0, _ => []
  | _ + 1, [] => []
  | fuel + 1, c :: t =>
    if secStart.isPrefixOf (c :: t) then
      match (c :: t).drop 4 with
      | [] => findSectionsAux fuel t
      | a :: r =>
        match captureSec [a] r with
        | (cap, rest) => cap :: findSectionsAux fuel rest
    else findSectionsAux fuel t

/-- All level-3 section captures of the flat extractor. -/
def findSections (s : Str) : List Str := findSectionsAux s.length s

/-- One phone of a section block: emit unless an identical `(name, phone)`
pair is already among the entries accumulated so far. -/
def emitPhone (title emailv urlv : Str) (acc : List Entry) (ph : Str) :
    List Entry :=
  if acc.any (fun e => e.phone == ph && e.name == title) then acc
  else acc ++ [⟨title, ph, emailv, urlv, []⟩]

/-- Process one section capture of the flat extractor's heading pass. -/
def emitSection (acc : List Entry) (sec : Str) : List Entry :=
  let s := pyStrip sec
  let ls := splitLines s
  let title := pyStrip (ls.headD [])
  let body := joinLines (ls.drop 1)
  let emailv := (findEmail body).getD []
  let urlv := (findUrl exclFlat body).getD []
  (findAllPhones body).foldl (emitPhone title emailv urlv) acc

/-- The flat extractor of `_load_directory` applied to the document text:
phone-table pass, then the heading pass appending to its result. -/
def parseFlat (text : Str) : List Entry :=
  (findSections text).foldl emitSection (flatTableEntries (splitLines text))

/-- `re.match(r'^## (.+)$', line)` followed by `.group(1).strip()`. -/
def h2Name (line : Str) : Option Str :=
  if ("## ".toList).isPrefixOf line && !(line.drop 3).isEmpty then
    some (pyStrip (line.drop 3))
  else none

/-- `re.match(r'^### (.+)$', line)` followed by `.group(1).strip()`. -/
def h3Name (line : Str) : Option Str :=
  if ("### ".toList).isPrefixOf line && !(line.drop 4).isEmpty then
    some (pyStrip (line.drop 4))
  else none

/-- The literal `Table of Contents`. -/
def tocName : Str := "Table of Contents".toList

/-- The literal `Overview & Main Sites`. -/
def ovrName : Str := "Overview & Main Sites".toList

/-- Membership in the source's `SKIP_SECTIONS` set. -/
def isSkipSection (k : Str) : Bool := k == tocName || k == ovrName || k == cpdMark

/-- The literal `Board of County Commissioners`. -/
def bccName : Str := "Board of County Commissioners".toList

/-- The literal `Position`. -/
def posMark : Str := "Position".toList

/-- The literal `Name`. -/
def nameMark : Str := "Name".toList

/-- The literal `Site`. -/
def siteMark : Str := "Site".toList

/-- The categorized view: an insertion-ordered dict from category name to
its entry list, as a key-unique association list. -/
abbrev CatMap := List (Str × List Entry)

/-- Key membership. -/
def hasKey (k : Str) (m : CatMap) : Bool := m.any (fun p => p.1 == k)

/-- `if k not in d: d[k] = []`. -/
def addKey (k : Str) (m : CatMap) : CatMap :=
  if hasKey k m then m else m ++ [(k, [])]

/-- `d[k].append(e)` (no-op on a missing key; the scan only appends to the
current category, whose key is always present). -/
def appendTo (k : Str) (e : Entry) (m : CatMap) : CatMap :=
  m.map (fun p => if p.1 == k then (p.1, p.2 ++ [e]) else p)

/-- `d.get(k)`. -/
def getVal (k : Str) (m : CatMap) : Option (List Entry) :=
  (m.find? (fun p => p.1 == k)).map (·.2)

/-- Mutate the last element of a list in place. -/
def modLast (f : Entry → Entry) : List Entry → List Entry
  | [] => []
  | [e] => [f e]
  | e :: t => e :: modLast f t

/-- Mutate the last entry of category `k` in place. -/
def modifyLastAt (k : Str) (f : Entry → Entry) (m : CatMap) : CatMap :=
  m.map (fun p => if p.1 == k then (p.1, modLast f p.2) else p)

/-- `d[k] = v`: replace in place when the key exists, else append. -/
def dictSet (k : Str) (v : List Entry) (m : CatMap) : CatMap :=
  if hasKey k m then m.map (fun p => if p.1 == k then (k, v) else p)
  else m ++ [(k, v)]

/-- Populate still-empty fields of the current entry from a free line:
phone, email, URL and `**Address:**` marker, each only if the field is
empty (a set field is never overwritten). -/
def enrich (line : Str) (e : Entry) : Entry :=
  { e with
    phone :=
      match findPhone line with
      | some p => if e.phone.isEmpty then p else e.phone
      | none => e.phone
    email :=
      match findEmail line with
      | some m => if e.email.isEmpty then m else e.email
      | none => e.email
    url :=
      match findUrl exclCat line with
      | some u => if e.url.isEmpty then u else e.url
      | none => e.url
    address :=
      match addrValue line with
      | some a => if e.address.isEmpty then a else e.address
      | none => e.address }

/-- State of the categorized extractor's single top-to-bottom scan. -/
structure CatState where
  cats : CatMap
  current : Option Str
deriving DecidableEq, Repr

/-- The guard of the Board-of-County-Commissioners table branch. Python's
`current_category == "Board of County Commissioners"` compares the plain
string. -/
def bccTableCond (st : CatState) (line : Str) : Bool :=
  st.current == some bccName && (['|'] : Str).isPrefixOf line
    && !strIn dashMark line && !strIn posMark line

/-- One line of the categorized extractor's primary scan. A falsy Python
`current_category` (either `None` or the empty string) blocks the heading
append and the enrichment branch. -/
def catStep (st : CatState) (line : Str) : CatState :=
  match h2Name line with
  | some catName =>
    if isSkipSection catName then { st with current := none }
    else { cats := addKey catName st.cats, current := some catName }
  | none =>
    match h3Name line with
    | some entryName =>
      match st.current with
      | some c =>
        if c.isEmpty then st
        else { st with cats := appendTo c ⟨entryName, [], [], [], []⟩ st.cats }
      | none => st
    | none =>
      if bccTableCond st line then
        match pipeCells line with
        | a :: b :: _ =>
          if b.isEmpty then st
          else
            { st with
              cats := appendTo bccName ⟨a ++ " — ".toList ++ b, [], [], [], []⟩ st.cats }
        | _ => st
      else
        match st.current with
        | some c =>
          if !c.isEmpty && !((getVal c st.cats).getD []).isEmpty then
            { st with cats := modifyLastAt c (enrich line) st.cats }
          else st
        | none => st

/-- The categorized extractor's primary scan over the document lines. -/
def primaryCats (lines : List Str) : CatMap :=
  (lines.foldl catStep ⟨[], none⟩).cats

/-- A line consisting of whitespace only. -/
def isBlankLine (l : Str) : Bool := l.all isWsC

/-- The heading line matched by `^## <k>\s*\n` for a category name `k`. -/
def isCatHeadingLine (k : Str) (l : Str) : Bool :=
  (("## ".toList) ++ k).isPrefixOf l && (l.drop (3 + k.length)).all isWsC

/-- Index of the first heading line of `k` that is followed by a newline
(a heading on the final, newline-less line never matches `\s*\n`). -/
def findBlockIdx (k : Str) : List Str → Option Nat
  | [] => none
  | [_] => none
  | l :: rest =>
    if isCatHeadingLine k l then some 0 else (findBlockIdx k rest).map (· + 1)

/-- The lines of the capture of `^## <k>\s*\n(.*?)(?=\n## |\Z)`: the greedy
`\s*\n` consumes trailing blank lines of the heading, after which the lazy
capture runs to the first later line starting with `## ` (a `## ` line
immediately at the capture start is swallowed, because its preceding
newline was consumed by `\s*`). -/
def blockLinesFor (k : Str) (lines : List Str) : List Str :=
  match findBlockIdx k lines with
  | none => []
  | some i =>
    match (lines.drop (i + 1)).dropWhile isBlankLine with
    | [] => []
    | a :: t => a :: t.takeWhile (fun l => !("## ".toList).isPrefixOf l)

/-- Scan for `\]\(` from a position with the lazy link-text group already
holding at least one character. -/
def linkFindClose (acc : Str) : Str → Option (Str × Str)
  | ']' :: '(' :: t2 => some (acc.reverse, t2)
  | c :: t => linkFindClose (c :: acc) t
  | [] => none

/-- Scan for `\)` with the lazy URL group already holding one character. -/
def linkFindParen (acc : Str) : Str → Option Str
  | ')' :: _ => some acc.reverse
  | c :: t => linkFindParen (c :: acc) t
  | [] => none

/-- `re.match(r'^[-*]\s+\[(.+?)\]\((.+?)\)', bline)`: both groups (before
stripping). The greedy `\s+` cannot backtrack usefully (a shorter run ends
at a whitespace character, never `[`), and if the first `](` admits no
closing `)` then no later one does. -/
def linkParts (line : Str) : Option (Str × Str) :=
  match line with
  | c :: rest =>
    if (c == '-' || c == '*') && !(rest.takeWhile isWsC).isEmpty then
      match rest.dropWhile isWsC with
      | '[' :: gc :: gt =>
        match linkFindClose [gc] gt with
        | some (nm, uc :: ut) => (linkFindParen [uc] ut).map (fun url => (nm, url))
        | _ => none
      | _ => none
    else none
  | [] => none

/-- The dash class `[—–-]`. -/
def isDashC (c : Char) : Bool := c == '—' || c == '–' || c == '-'

/-- Whether `(?:\*\*|\s*[—–-]\s)` matches at the front of `v` (inside
the second branch, `\s*` must consume exactly the whitespace run since a
dash is not whitespace). -/
def termHere (v : Str) : Bool :=
  ("**".toList).isPrefixOf v ||
    (match v.dropWhile isWsC with
     | d :: w :: _ => isDashC d && isWsC w
     | _ => false)

/-- Lazy group of the bullet pattern: consume at least one character, stop
at the first position where the terminator matches. -/
def bulletGroupAux (acc : Str) : Str → Option Str
  | [] => none
  | c :: t => if termHere t then some (c :: acc).reverse else bulletGroupAux (c :: acc) t

/-- Suffixes after `\*?` in the engine's preference order (consume a star
first, then the empty alternative). -/
def starOpts1 (u : Str) : List Str :=
  match u with
  | '*' :: t => [t, '*' :: t]
  | _ => [u]

/-- Suffixes after `\*?\*?` in backtracking preference order. -/
def starSuffixes (u : Str) : List Str := (starOpts1 u).flatMap starOpts1

/-- Suffixes after the greedy `\s+` in preference order (longest run
first, at least one character). -/
def wsSuffixes (rest : Str) : List Str :=
  let m := (rest.takeWhile isWsC).length
  (List.range m).map (fun i => rest.drop (m - i))

/-- `re.match(r'^[-*]\s+\*?\*?(.+?)(?:\*\*|\s*[—–-]\s)', bline).group(1)`,
with the engine's full backtracking order: the lazy group extends first,
then the second `\*?` falls back, then the first, then `\s+` shortens. -/
def bulletName (line : Str) : Option Str :=
  match line with
  | c :: rest =>
    if c == '-' || c == '*' then
      ((wsSuffixes rest).flatMap
        (fun u => (starSuffixes u).filterMap (bulletGroupAux []))).head?
    else none
  | [] => none

/-- Entries contributed by one line of a bullet-style fallback block:
markdown link first, then pipe-table row, then plain bullet. -/
def fallbackLineEntries (bline : Str) : List Entry :=
  match linkParts bline with
  | some (nm, urlg) =>
    [⟨pyStrip nm, (findPhone bline).getD [], [], pyStrip urlg, []⟩]
  | none =>
    if (['|'] : Str).isPrefixOf bline && !strIn dashMark bline
        && !strIn nameMark bline && !strIn siteMark bline then
      match pipeCells bline with
      | a :: _ =>
        if a.isEmpty then []
        else [⟨a, (findPhone bline).getD [], [], (findUrl exclTable bline).getD [], []⟩]
      | [] => []
    else
      match bulletName bline with
      | some g =>
        [⟨stripStars (pyStrip g), (findPhone bline).getD [], [],
          (findUrl exclCat bline).getD [], []⟩]
      | none => []

/-- The fallback re-scan for a category the primary scan left empty. -/
def fallbackEntries (k : Str) (lines : List Str) : List Entry :=
  (blockLinesFor k lines).foldl (fun acc bl => acc ++ fallbackLineEntries bl) []

/-- Table rows of the synthetic `Complete Phone Directory` category. -/
def phoneDirEntries (lines : List Str) : List Entry :=
  (blockLinesFor cpdMark lines).foldl
    (fun acc pl =>
      if (['|'] : Str).isPrefixOf pl && !strIn dashMark pl && !strIn deptMark pl then
        match pipeCells pl with
        | a :: b :: _ => if a.isEmpty then acc else acc ++ [⟨a, b, [], [], []⟩]
        | _ => acc
      else acc) []

/-- The categorized extractor of `_load_directory_by_category`: primary
scan, bullet fallback for empty categories, the synthetic phone-directory
category, then removal of empty categories. -/
def parseCats (text : Str) : CatMap :=
  let lines := splitLines text
  let prim := primaryCats lines
  let withFb :=
    prim.map (fun p => if p.2.isEmpty then (p.1, fallbackEntries p.1 lines) else p)
  let pe := phoneDirEntries lines
  let withPd := if pe.isEmpty then withFb else dictSet cpdMark pe withFb
  withPd.filter (fun p => !p.2.isEmpty)

/-- `{k: len(v) for k, v in categories.items()}` of `_directory_browse`. -/
def browseCounts (m : CatMap) : List (Str × Nat) := m.map (fun p => (p.1, p.2.length))

/-- Failure of the cache read path: `json.loads` raising on content that
does not deserialize. -/
inductive CacheErr where
  | corrupt
deriving DecidableEq, Repr

/-- Observable state of one cache file: whether the file exists, its age
`time.time() - st_mtime` in seconds, and the deserialized payload (`none`
when `json.loads` would raise on its bytes). -/
structure CacheFile (α : Type) where
  present : Bool
  age : Nat
  content : Option α

/-- The freshness window of both cache files, in seconds. -/
def freshWindow : Nat := 86400

/-- `_load_directory`: fresh cache short-circuit (whose `json.loads` is
not guarded), missing-source check, parse, best-effort write-back (the
write failure is swallowed and does not affect the returned value). -/
def loadDirectory (cache : CacheFile (List Entry)) (src : Option Str) :
    Except CacheErr (List Entry) :=
  if cache.present ∧ cache.age < freshWindow then
    match cache.content with
    | some v => Except.ok v
    | none => Except.error CacheErr.corrupt
  else
    match src with
    | none => Except.ok []
    | some text => Except.ok (parseFlat text)

/-- `_load_directory_by_category`: same cache discipline as the flat
loader, empty mapping on a missing source. -/
def loadDirectoryByCategory (cache : CacheFile CatMap) (src : Option Str) :
    Except CacheErr CatMap :=
  if cache.present ∧ cache.age < freshWindow then
    match cache.content with
    | some v => Except.ok v
    | none => Except.error CacheErr.corrupt
  else
    match src with
    | none => Except.ok []
    | some text => Except.ok (parseCats text)

/-- `_directory_browse`'s category/count mapping. -/
def browseCategories (cache : CacheFile CatMap) (src : Option Str) :
    Except CacheErr (List (Str × Nat)) :=
  (loadDirectoryByCategory cache src).map browseCounts

/-- Number of distinct query tokens containment-matched by some name
token. -/
def tokenHits (qts : List Str) (nameTokens : List Str) : Nat :=
  (qts.filter (fun qt => nameTokens.any (fun nt => strIn qt nt))).length

/-- `(token_hits / len(query_tokens)) * 80 if query_tokens else 0`. -/
def tokenScoreQ (qts : List Str) (nameL : Str) : ℚ :=
  if qts.isEmpty then 0
  else ((tokenHits qts (splitWs nameL) : ℚ) / (qts.length : ℚ)) * 80

/-- 80 if the lowercased query is a substring of the entry's phone, email
or url field, else 0. -/
def fieldBonus (ql : Str) (e : Entry) : ℚ :=
  if strIn ql (pyLower e.phone) || strIn ql (pyLower e.email)
      || strIn ql (pyLower e.url) then 80
  else 0

/-- `max(token_score, fuzz_score, field_bonus)`, with the external
`fuzz.token_set_ratio` left as the parameter `ratio` (the spec scopes it
as a 0–100 collaborator). -/
def bestScore (ratio : Str → Str → ℕ) (ql : Str) (qts : List Str) (e : Entry) : ℚ :=
  max
    (max (tokenScoreQ qts (pyLower e.name))
      ((ratio ql (pyLower e.name) : ℚ) * (7 / 10)))
    (fieldBonus ql e)

/-- Score of one entry: the exact-substring short-circuit, else the best
signal if it strictly exceeds 40, else exclusion. -/
def scoreOf (ratio : Str → Str → ℕ) (ql : Str) (qts : List Str) (e : Entry) :
    Option ℚ :=
  if strIn ql (pyLower e.name) then some 100
  else if 40 < bestScore ratio ql qts e then some (bestScore ratio ql qts e)
  else none

/-- `set(query_lower.split())`: the distinct query tokens. -/
def queryTokens (ql : Str) : List Str := (splitWs ql).dedup

/-- The scored list of `_fuzzy_search` in scan order. -/
def fuzzyScan (ratio : Str → Str → ℕ) (entries : List Entry) (query : Str) :
    List (ℚ × Entry) :=
  entries.filterMap
    (fun e =>
      (scoreOf ratio (pyLower query) (queryTokens (pyLower query)) e).map
        (fun s => (s, e)))

/-- The comparison of `scored.sort(key=lambda x: -x[0])`: `x` before `y`
iff `y`'s score is at most `x`'s. A stable sort under this relation is
exactly Python's stable descending sort. -/
def scoreRel (x y : ℚ × Entry) : Prop := y.1 ≤ x.1

instance : DecidableRel scoreRel := fun x y => inferInstanceAs (Decidable (y.1 ≤ x.1))

instance : IsTotal (ℚ × Entry) scoreRel := ⟨fun x y => le_total y.1 x.1⟩

instance : IsTrans (ℚ × Entry) scoreRel := ⟨fun _ _ _ h1 h2 => le_trans h2 h1⟩

/-- The sorted scored list of `_fuzzy_search` (insertion sort under
`scoreRel` is stable, like Python's sort). -/
def fuzzySorted (ratio : Str → Str → ℕ) (entries : List Entry) (query : Str) :
    List (ℚ × Entry) :=
  (fuzzyScan ratio entries query).insertionSort scoreRel

/-- `_fuzzy_search`: the first 15 entries of the sorted scored list. -/
def fuzzySearch (ratio : Str → Str → ℕ) (entries : List Entry) (query : Str) :
    List Entry :=
  ((fuzzySorted ratio entries query).take 15).map Prod.snd

/-- `f"{e['name']} {e.get('phone','')} {e.get('email','')} {e.get('url','')} {e.get('address','')}"`. -/
def searchableText (e : Entry) : Str :=
  e.name ++ ' ' :: e.phone ++ ' ' :: e.email ++ ' ' :: e.url ++ ' ' :: e.address

/-- `_regex_search`, with `re.compile(pattern, re.IGNORECASE)` left as the
parameter `compile`: an error message on patterns that do not compile, else
a case-insensitive matcher over the searchable text. Returns the source's
`(results, err)` pair. -/
def regexSearch (compile : Str → Except Str (Str → Bool)) (entries : List Entry)
    (pattern : Str) : Option (List Entry) × Option Str :=
  match compile pattern with
  | Except.error err => (none, some err)
  | Except.ok rx => (some (entries.filter (fun e => rx (searchableText e))), none)

/-! ## Concrete data used by witnesses and counterexamples -/

/-- A well-formed one-section document. -/
def docFire : Str := "### Fire Rescue\n(407) 836-9000".toList

/-- A demo entry. -/
def demoE1 : Entry := ⟨"Fire Rescue Dept".toList, "(407) 836-9000".toList, [], [], []⟩

/-- A second demo entry. -/
def demoE2 : Entry := ⟨"Solid Waste".toList, "(407) 836-6601".toList, [], [], []⟩

/-- A demo entry list. -/
def demoEntries : List Entry := [demoE1, demoE2]

/-- A trivial stand-in for the external similarity collaborator. -/
def constRatio : Str → Str → ℕ := fun _ _ => 0

/-- A demo query. -/
def qFire : Str := "fire".toList

/-- A demo compiled-regex collaborator: the empty pattern fails to compile
with a fixed message, anything else matches the literal pattern as a
substring. -/
def demoCompile : Str → Except Str (Str → Bool) :=
  fun p =>
    if p.isEmpty then Except.error ("nothing to repeat".toList)
    else Except.ok (fun s => strIn p s)

/-- A document whose two heading blocks carry the identical
`(name, phone)` pair. -/
def docDup : Str := "### X\n(407) 111-2222\n### X\n(407) 111-2222".toList

/-- The invariant that every entry at position `n` or later differs in its
`(name, phone)` pair from every entry before it. -/
def DistinctFrom (n : Nat) (l : List Entry) : Prop :=
  ∀ (l1 : List Entry) (e : Entry) (l2 : List Entry), l = l1 ++ e :: l2 →
    n ≤ l1.length → ∀ e' ∈ l1, ¬(e'.name = e.name ∧ e'.phone = e.phone)

/-- A document with one regular category and a phone-directory table. -/
def docCats : Str :=
  ("## Utilities\n### Solid Waste\n## Complete Phone Directory\n"
    ++ "| Fire | (407) 836-9000 |").toList

/-- A one-category scan state whose category holds one entry with all
fields still empty. -/
def demoCatSt : CatState :=
  ⟨[("Utilities".toList, [⟨"Solid Waste".toList, [], [], [], []⟩])],
    some ("Utilities".toList)⟩

/-- The demo entry of `demoCatSt`. -/
def demoSW : Entry := ⟨"Solid Waste".toList, [], [], [], []⟩

/-- A free enrichment line. -/
def demoLine : Str := "Phone: (407) 836-6601".toList

/-- The per-line conditions under which no extraction rule can produce an
empty name: a pipe row's first cell, a level-3 heading's text, a markdown
link's text and a bullet's text must not strip to nothing. -/
def goodLine (l : Str) : Bool :=
  (match pipeCells l with
   | a :: _ => !a.isEmpty
   | [] => true) &&
  (match h3Name l with
   | some n => !n.isEmpty
   | none => true) &&
  (match linkParts l with
   | some (nm, _) => !(pyStrip nm).isEmpty
   | none => true) &&
  (match bulletName l with
   | some g => !(stripStars (pyStrip g)).isEmpty
   | none => true)

/-- A document all of whose lines satisfy `goodLine`. -/
def goodDoc (text : Str) : Bool := (splitLines text).all goodLine

/-- A phone-table row with a blank first cell. -/
def docBlank : Str := "Complete Phone Directory\n| | (407) 836-9000 |".toList

/-! ## General lemmas -/

/-- The empty string is a Python-substring of everything. -/
theorem strIn_nil (h : Str) : strIn [] h = true := by
  cases h <;> simp [strIn, List.isPrefixOf]

/-- A fold preserves any invariant its step preserves. -/
theorem foldl_preserve {α : Type} {β : Type} (P : α → Prop) (f : α → β → α) :
    ∀ (l : List β) (init : α), P init →
      (∀ a b, b ∈ l → P a → P (f a b)) → P (l.foldl f init)
  | [], _, h0, _ => h0
  | b :: t, init, h0, hf =>
    foldl_preserve P f t (f init b) (hf init b (List.mem_cons_self b t) h0)
      (fun a b' hb' ha => hf a b' (List.mem_cons_of_mem b hb') ha)

/-- Inserting under `scoreRel` commutes with filtering one score class:
the inserted pair lands after every strictly greater score and before the
first equal one, so the class keeps scan order. -/
theorem filter_orderedInsert (s : ℚ) (a : ℚ × Entry) :
    ∀ l : List (ℚ × Entry),
      (l.orderedInsert scoreRel a).filter (fun x => x.1 == s) =
        if a.1 = s then a :: l.filter (fun x => x.1 == s)
        else l.filter (fun x => x.1 == s)
  | [] => by
    by_cases has : a.1 = s <;>
      simp [List.orderedInsert, List.filter_cons, has]
  | b :: t => by
    by_cases hab : scoreRel a b
    · rw [List.orderedInsert, if_pos hab]
      by_cases has : a.1 = s <;> by_cases hbs : b.1 = s <;>
        simp [List.filter_cons, has, hbs]
    · rw [List.orderedInsert, if_neg hab]
      have hlt : a.1 < b.1 := lt_of_not_le hab
      have ih := filter_orderedInsert s a t
      by_cases has : a.1 = s <;> by_cases hbs : b.1 = s
      · exact absurd (hbs.trans has.symm) (ne_of_gt hlt)
      · simp [List.filter_cons, ih, has, hbs]
      · simp [List.filter_cons, ih, has, hbs]
      · simp [List.filter_cons, ih, has, hbs]

/-- Stability of the sort of `_fuzzy_search`: each score class of the
sorted list is the score class of the scan-ordered list. -/
theorem filter_insertionSort (s : ℚ) :
    ∀ l : List (ℚ × Entry),
      (l.insertionSort scoreRel).filter (fun x => x.1 == s) =
        l.filter (fun x => x.1 == s)
  | [] => rfl
  | a :: t => by
    rw [List.insertionSort, filter_orderedInsert s a, filter_insertionSort s t,
      List.filter_cons]
    by_cases has : a.1 = s <;> simp [has]

/-- Sorting a constant-score list is the identity (all comparisons hold so
every element is inserted at the front of the already-sorted tail). -/
theorem insertionSort_score_const (c : ℚ) :
    ∀ l : List (ℚ × Entry), (∀ x ∈ l, x.1 = c) →
      l.insertionSort scoreRel = l
  | [], _ => rfl
  | a :: t, h => by
    rw [List.insertionSort_cons]
    · rw [insertionSort_score_const c t (fun x hx => h x (List.mem_cons_of_mem a hx))]
    · intro b hb
      show b.1 ≤ a.1
      rw [h b (List.mem_cons_of_mem a hb), h a (List.mem_cons_self a t)]

/-! ## Claim C1 -/

/-- Claim C1 fails on the code: with a fresh cache file whose content does
not deserialize, `_load_directory` raises the `json.loads` error instead of
ignoring the corrupt cache and rebuilding, even though re-parsing the
source would produce a non-empty fresh result. -/
theorem claim_C1_counterexample :
    loadDirectory ⟨true, 0, none⟩ (some docFire) = Except.error CacheErr.corrupt ∧
      loadDirectory ⟨true, 0, none⟩ (some docFire) ≠
        Except.ok (parseFlat docFire) ∧
      parseFlat docFire ≠ [] := by
  refine ⟨rfl, by simp [loadDirectory, freshWindow], by decide⟩

/-- Amended claim C1: a fresh cache file with corrupt, non-deserializable
content makes the load operation for that kind (flat or categorized)
surface the deserialization failure to the caller; the corrupt cache is
not ignored and the view is not rebuilt. Only absent or stale caches
trigger a rebuild (and only cache-write failures are silently ignored). -/
theorem claim_C1_theorem (cf : CacheFile (List Entry)) (cg : CacheFile CatMap)
    (src : Option Str)
    (hfp : cf.present = true) (hfa : cf.age < freshWindow) (hfc : cf.content = none)
    (hgp : cg.present = true) (hga : cg.age < freshWindow) (hgc : cg.content = none) :
    loadDirectory cf src = Except.error CacheErr.corrupt ∧
      loadDirectoryByCategory cg src = Except.error CacheErr.corrupt := by
  constructor
  · rw [loadDirectory.eq_def, hfc,
      if_pos (show cf.present = true ∧ cf.age < freshWindow from ⟨hfp, hfa⟩)]
  · rw [loadDirectoryByCategory.eq_def, hgc,
      if_pos (show cg.present = true ∧ cg.age < freshWindow from ⟨hgp, hga⟩)]

/-- Witness for the amended claim C1 at a concrete fresh corrupt cache. -/
theorem claim_C1_witness :
    loadDirectory ⟨true, 3600, none⟩ (some docFire) = Except.error CacheErr.corrupt ∧
      loadDirectoryByCategory ⟨true, 3600, none⟩ (some docFire) =
        Except.error CacheErr.corrupt :=
  claim_C1_theorem ⟨true, 3600, none⟩ ⟨true, 3600, none⟩ (some docFire)
    rfl (by decide) rfl rfl (by decide) rfl

/-! ## Claim C6 -/

/-- Claim C6: `_regex_search` returns the compiler's message exactly when
the pattern does not compile; otherwise it returns, in source order and
with no length cap, exactly the entries whose searchable concatenation
`name + " " + phone + " " + email + " " + url + " " + address` the
compiled case-insensitive matcher accepts. The external `re` engine is
the `compile` collaborator parameter. -/
theorem claim_C6_theorem (compile : Str → Except Str (Str → Bool))
    (entries : List Entry) (pattern : Str) :
    (∀ msg, regexSearch compile entries pattern = (none, some msg) ↔
      compile pattern = Except.error msg) ∧
    (∀ rx, compile pattern = Except.ok rx →
      regexSearch compile entries pattern =
        (some (entries.filter (fun e => rx (searchableText e))), none)) ∧
    (∀ rx, compile pattern = Except.ok rx →
      (entries.filter (fun e => rx (searchableText e))).Sublist entries) := by
  refine ⟨fun msg => ?_, fun rx h => ?_, fun rx _ => List.filter_sublist entries⟩
  · cases h : compile pattern <;> simp [regexSearch, h]
  · simp [regexSearch, h]

/-- Witness for claim C6: a compiling pattern filters the demo entries, a
non-compiling pattern surfaces the message. -/
theorem claim_C6_witness :
    regexSearch demoCompile demoEntries ("836-9000".toList) =
      (some [demoE1], none) ∧
    regexSearch demoCompile demoEntries [] =
      (none, some ("nothing to repeat".toList)) := by
  constructor
  · have h := (claim_C6_theorem demoCompile demoEntries ("836-9000".toList)).2.1
      (fun s => strIn ("836-9000".toList) s) rfl
    rw [h]
    decide
  · exact ((claim_C6_theorem demoCompile demoEntries []).1
      ("nothing to repeat".toList)).mpr rfl

/-! ## Claim C9 -/

/-- Claim C9: when the source document does not exist and no valid
(present and unexpired) cache file exists, the flat extractor returns the
empty list, the categorized extractor returns the empty mapping,
`browseCategories` yields the empty mapping, fuzzy search over the flat
view yields `[]` for every query, and no error reaches the caller. -/
theorem claim_C9_theorem (cf : CacheFile (List Entry)) (cg : CacheFile CatMap)
    (hf : ¬(cf.present = true ∧ cf.age < freshWindow))
    (hg : ¬(cg.present = true ∧ cg.age < freshWindow)) :
    loadDirectory cf none = Except.ok [] ∧
      loadDirectoryByCategory cg none = Except.ok [] ∧
      browseCategories cg none = Except.ok [] ∧
      ∀ (ratio : Str → Str → ℕ) (q : Str), fuzzySearch ratio [] q = [] := by
  have h1 : loadDirectory cf none = Except.ok [] := by
    rw [loadDirectory.eq_def, if_neg (by simpa using hf)]
  have h2 : loadDirectoryByCategory cg none = Except.ok [] := by
    rw [loadDirectoryByCategory.eq_def, if_neg (by simpa using hg)]
  refine ⟨h1, h2, ?_, fun ratio q => rfl⟩
  rw [browseCategories, h2]
  rfl

/-- Witness for claim C9 with a concrete stale cache pair. -/
theorem claim_C9_witness :
    loadDirectory ⟨true, 90000, some [demoE1]⟩ none = Except.ok [] ∧
      loadDirectoryByCategory ⟨false, 0, none⟩ none = Except.ok [] ∧
      browseCategories ⟨false, 0, none⟩ none = Except.ok [] ∧
      fuzzySearch constRatio [] qFire = [] := by
  have h := claim_C9_theorem ⟨true, 90000, some [demoE1]⟩ ⟨false, 0, none⟩
    (by decide) (by decide)
  exact ⟨h.1, h.2.1, h.2.2.1, h.2.2.2 constRatio qFire⟩

/-! ## Claim C10 -/

/-- With the empty query every entry takes the exact-substring branch. -/
theorem fuzzyScan_nil_query (ratio : Str → Str → ℕ) :
    ∀ entries : List Entry,
      fuzzyScan ratio entries [] = entries.map (fun e => ((100 : ℚ), e))
  | [] => rfl
  | e :: t => by
    have hs : scoreOf ratio (pyLower []) (queryTokens (pyLower [])) e = some 100 := by
      rw [scoreOf, if_pos]
      exact strIn_nil (pyLower e.name)
    have ht := fuzzyScan_nil_query ratio t
    simp only [fuzzyScan, List.filterMap_cons] at ht ⊢
    rw [hs]
    simpa using ht

/-- Claim C10: for a non-empty entry list, `_fuzzy_search` with the empty
query scores every entry 100 through the exact-substring branch (before
the empty token set is consulted) and returns the first `min(15, length)`
entries in scan order; the empty query is not rejected or special-cased. -/
theorem claim_C10_theorem (ratio : Str → Str → ℕ) (entries : List Entry)
    (_hne : entries ≠ []) :
    fuzzyScan ratio entries [] = entries.map (fun e => ((100 : ℚ), e)) ∧
      fuzzySearch ratio entries [] = entries.take 15 ∧
      (fuzzySearch ratio entries []).length = min 15 entries.length := by
  have h1 := fuzzyScan_nil_query ratio entries
  have hconst : ∀ x ∈ fuzzyScan ratio entries [],
      x.1 = (100 : ℚ) := by
    intro x hx
    rw [h1] at hx
    obtain ⟨e, _, rfl⟩ := List.mem_map.1 hx
    rfl
  have h2 : fuzzySearch ratio entries [] = entries.take 15 := by
    rw [fuzzySearch, fuzzySorted, insertionSort_score_const 100 _ hconst, h1,
      ← List.map_take, List.map_map]
    simp
  refine ⟨h1, h2, ?_⟩
  rw [h2, List.length_take]

/-- Witness for claim C10 on the demo entries. -/
theorem claim_C10_witness :
    fuzzyScan constRatio demoEntries [] =
        [((100 : ℚ), demoE1), ((100 : ℚ), demoE2)] ∧
      fuzzySearch constRatio demoEntries [] = [demoE1, demoE2] := by
  have h := claim_C10_theorem constRatio demoEntries (by decide)
  exact ⟨h.1, by rw [h.2.1]; rfl⟩

/-! ## Claims C4 and C5 -/

/-- The token-containment signal never exceeds 80. -/
theorem tokenScoreQ_le (qts : List Str) (nameL : Str) : tokenScoreQ qts nameL ≤ 80 := by
  rw [tokenScoreQ]
  split
  · norm_num
  · rename_i hne
    have hlen : 0 < qts.length := by
      cases qts with
      | nil => simp at hne
      | cons a t => simp
    have hq : (0 : ℚ) < (qts.length : ℚ) := by exact_mod_cast hlen
    have hhits : (tokenHits qts (splitWs nameL) : ℚ) ≤ (qts.length : ℚ) := by
      exact_mod_cast List.length_filter_le _ qts
    have hdiv : (tokenHits qts (splitWs nameL) : ℚ) / (qts.length : ℚ) ≤ 1 :=
      (div_le_one hq).2 hhits
    calc (tokenHits qts (splitWs nameL) : ℚ) / (qts.length : ℚ) * 80
        ≤ 1 * 80 := by
          exact mul_le_mul_of_nonneg_right hdiv (by norm_num)
      _ = 80 := by norm_num

/-- The scaled similarity signal never exceeds 70 when the collaborator
stays within its 0–100 range. -/
theorem fuzzPart_le (r : ℕ) (hr : r ≤ 100) : (r : ℚ) * (7 / 10) ≤ 70 := by
  have : (r : ℚ) ≤ 100 := by exact_mod_cast hr
  calc (r : ℚ) * (7 / 10) ≤ 100 * (7 / 10) :=
        mul_le_mul_of_nonneg_right this (by norm_num)
    _ = 70 := by norm_num

/-- The field bonus never exceeds 80. -/
theorem fieldBonus_le (ql : Str) (e : Entry) : fieldBonus ql e ≤ 80 := by
  rw [fieldBonus]
  split <;> norm_num

/-- The best non-substring signal never exceeds 80. -/
theorem bestScore_le (ratio : Str → Str → ℕ) (ql : Str) (qts : List Str) (e : Entry)
    (hratio : ∀ a b, ratio a b ≤ 100) :
    bestScore ratio ql qts e ≤ 80 := by
  rw [bestScore]
  refine max_le (max_le (tokenScoreQ_le qts (pyLower e.name)) ?_) (fieldBonus_le ql e)
  exact le_trans (fuzzPart_le _ (hratio ql (pyLower e.name))) (by norm_num)

/-- Characterization of a produced score: the substring ceiling or a best
signal strictly above 40. -/
theorem scoreOf_eq_some {ratio : Str → Str → ℕ} {ql : Str} {qts : List Str}
    {e : Entry} {s : ℚ} (h : scoreOf ratio ql qts e = some s) :
    (strIn ql (pyLower e.name) = true ∧ s = 100) ∨
      (strIn ql (pyLower e.name) = false ∧ s = bestScore ratio ql qts e ∧ 40 < s) := by
  by_cases hs : strIn ql (pyLower e.name) = true
  · rw [scoreOf, if_pos hs] at h
    exact Or.inl ⟨hs, (Option.some_inj.1 h).symm⟩
  · rw [scoreOf, if_neg hs] at h
    by_cases hb : 40 < bestScore ratio ql qts e
    · rw [if_pos hb] at h
      obtain rfl := Option.some_inj.1 h
      exact Or.inr ⟨by simpa using hs, rfl, hb⟩
    · rw [if_neg hb] at h
      exact absurd h (by simp)

/-- Membership in the scored scan list. -/
theorem mem_fuzzyScan {ratio : Str → Str → ℕ} {entries : List Entry} {q : Str}
    {x : ℚ × Entry} :
    x ∈ fuzzyScan ratio entries q ↔
      x.2 ∈ entries ∧
        scoreOf ratio (pyLower q) (queryTokens (pyLower q)) x.2 = some x.1 := by
  rw [fuzzyScan, List.mem_filterMap]
  constructor
  · rintro ⟨a, ha, hf⟩
    obtain ⟨s, hs, hsx⟩ := Option.map_eq_some'.1 hf
    cases hsx
    exact ⟨ha, hs⟩
  · rintro ⟨ha, hs⟩
    exact ⟨x.2, ha, by rw [hs]; rfl⟩

/-- Claim C4: an entry whose lowercased name contains the lowercased query
scores exactly 100, independently of the similarity collaborator (no other
signal is consulted), appears in the sorted scored list, and precedes every
entry matched only by the token-containment (at most 80) or scaled
similarity (at most 70) signals. -/
theorem claim_C4_theorem (ratio : Str → Str → ℕ) (entries : List Entry) (q : Str)
    (e : Entry) (hratio : ∀ a b, ratio a b ≤ 100) (he : e ∈ entries)
    (hsub : strIn (pyLower q) (pyLower e.name) = true) :
    (∀ ratio2 : Str → Str → ℕ,
        scoreOf ratio2 (pyLower q) (queryTokens (pyLower q)) e = some 100) ∧
      ((100 : ℚ), e) ∈ fuzzySorted ratio entries q ∧
      (∀ x ∈ fuzzySorted ratio entries q,
        strIn (pyLower q) (pyLower x.2.name) = false →
          x.1 ≤ 80 ∧
            tokenScoreQ (queryTokens (pyLower q)) (pyLower x.2.name) ≤ 80 ∧
            (ratio (pyLower q) (pyLower x.2.name) : ℚ) * (7 / 10) ≤ 70) ∧
      (∀ l1 x l2, fuzzySorted ratio entries q = l1 ++ x :: l2 →
        strIn (pyLower q) (pyLower x.2.name) = false → ((100 : ℚ), e) ∈ l1) := by
  have hscore : ∀ ratio2 : Str → Str → ℕ,
      scoreOf ratio2 (pyLower q) (queryTokens (pyLower q)) e = some 100 :=
    fun ratio2 => by rw [scoreOf, if_pos hsub]
  have hmem : ((100 : ℚ), e) ∈ fuzzySorted ratio entries q := by
    rw [fuzzySorted, List.mem_insertionSort]
    exact mem_fuzzyScan.2 ⟨he, hscore ratio⟩
  have hlow : ∀ x ∈ fuzzySorted ratio entries q,
      strIn (pyLower q) (pyLower x.2.name) = false →
        x.1 ≤ 80 ∧
          tokenScoreQ (queryTokens (pyLower q)) (pyLower x.2.name) ≤ 80 ∧
          (ratio (pyLower q) (pyLower x.2.name) : ℚ) * (7 / 10) ≤ 70 := by
    intro x hx hnsub
    have hx' : x ∈ fuzzyScan ratio entries q := by
      rw [fuzzySorted, List.mem_insertionSort] at hx
      exact hx
    obtain ⟨_, hsc⟩ := mem_fuzzyScan.1 hx'
    rcases scoreOf_eq_some hsc with ⟨hs, _⟩ | ⟨_, hbest, _⟩
    · rw [hs] at hnsub
      exact absurd hnsub (by simp)
    · refine ⟨?_, tokenScoreQ_le _ _, fuzzPart_le _ (hratio _ _)⟩
      rw [hbest]
      exact bestScore_le ratio _ _ x.2 hratio
  refine ⟨hscore, hmem, hlow, ?_⟩
  intro l1 x l2 heq hnsub
  have hx : x ∈ fuzzySorted ratio entries q := by
    rw [heq]
    exact List.mem_append.2 (Or.inr (List.mem_cons_self x l2))
  have hx80 : x.1 ≤ 80 := (hlow x hx hnsub).1
  have hmem' : ((100 : ℚ), e) ∈ l1 ++ x :: l2 := heq ▸ hmem
  rcases List.mem_append.1 hmem' with h1 | h2
  · exact h1
  · rcases List.mem_cons.1 h2 with hxe | h2'
    · exfalso
      have : x.1 = (100 : ℚ) := by rw [← hxe]
      rw [this] at hx80
      norm_num at hx80
    · exfalso
      have hsorted : List.Sorted scoreRel (fuzzySorted ratio entries q) :=
        List.sorted_insertionSort scoreRel (fuzzyScan ratio entries q)
      rw [heq] at hsorted
      have hpair : (x :: l2).Pairwise scoreRel :=
        hsorted.sublist (List.sublist_append_right l1 (x :: l2))
      have hrel : scoreRel x ((100 : ℚ), e) := (List.pairwise_cons.1 hpair).1 _ h2'
      have : (100 : ℚ) ≤ x.1 := hrel
      have : (100 : ℚ) ≤ 80 := le_trans this hx80
      norm_num at this

/-- Witness for claim C4 on the demo data. -/
theorem claim_C4_witness :
    scoreOf constRatio (pyLower qFire) (queryTokens (pyLower qFire)) demoE1 =
        some 100 ∧
      ((100 : ℚ), demoE1) ∈ fuzzySorted constRatio demoEntries qFire := by
  have h := claim_C4_theorem constRatio demoEntries qFire demoE1
    (fun a b => by norm_num [constRatio]) (by decide) (by decide)
  exact ⟨h.1 constRatio, h.2.1⟩

/-- Claim C5: fuzzy search returns at most 15 entries; an entry is
included only via the substring ceiling or a best signal strictly above
40; the scored list is sorted by descending score; score classes keep scan
order (stability); the result is the first 15 of the sorted list. -/
theorem claim_C5_theorem (ratio : Str → Str → ℕ) (entries : List Entry) (q : Str) :
    (fuzzySearch ratio entries q).length ≤ 15 ∧
      (∀ e ∈ fuzzySearch ratio entries q,
        strIn (pyLower q) (pyLower e.name) = true ∨
          (strIn (pyLower q) (pyLower e.name) = false ∧
            40 < bestScore ratio (pyLower q) (queryTokens (pyLower q)) e)) ∧
      List.Sorted scoreRel (fuzzySorted ratio entries q) ∧
      (∀ s : ℚ, (fuzzySorted ratio entries q).filter (fun x => x.1 == s) =
        (fuzzyScan ratio entries q).filter (fun x => x.1 == s)) ∧
      fuzzySearch ratio entries q =
        ((fuzzySorted ratio entries q).take 15).map Prod.snd := by
  refine ⟨?_, ?_, List.sorted_insertionSort scoreRel (fuzzyScan ratio entries q),
    fun s => filter_insertionSort s (fuzzyScan ratio entries q), rfl⟩
  · rw [fuzzySearch, List.length_map, List.length_take]
    exact min_le_left 15 _
  · intro e he
    rw [fuzzySearch] at he
    obtain ⟨x, hx, rfl⟩ := List.mem_map.1 he
    have hx' : x ∈ fuzzyScan ratio entries q := by
      have := List.mem_of_mem_take hx
      rw [fuzzySorted, List.mem_insertionSort] at this
      exact this
    obtain ⟨_, hsc⟩ := mem_fuzzyScan.1 hx'
    rcases scoreOf_eq_some hsc with ⟨hs, _⟩ | ⟨hs, hbest, h40⟩
    · exact Or.inl hs
    · exact Or.inr ⟨hs, hbest ▸ h40⟩

/-- Witness for claim C5 on the demo data. -/
theorem claim_C5_witness :
    (fuzzySearch constRatio demoEntries qFire).length ≤ 15 ∧
      ((fuzzySorted constRatio demoEntries qFire).filter
          (fun x => x.1 == (100 : ℚ)) =
        (fuzzyScan constRatio demoEntries qFire).filter
          (fun x => x.1 == (100 : ℚ))) := by
  have h := claim_C5_theorem constRatio demoEntries qFire
  exact ⟨h.1, h.2.2.2.1 100⟩

/-! ## Claim C3 -/

/-- Splitting off the final element of an appended singleton. -/
theorem append_singleton_split {α : Type} (x e : α) :
    ∀ (l1 l l2 : List α), l ++ [x] = l1 ++ e :: l2 →
      (l1 = l ∧ e = x ∧ l2 = []) ∨ ∃ l2', l = l1 ++ e :: l2' ∧ l2 = l2' ++ [x]
  | [], l, l2, h => by
    cases l with
    | nil =>
      simp only [List.nil_append] at h
      obtain ⟨he, hl2⟩ := List.cons.inj h
      exact Or.inl ⟨rfl, he.symm, hl2.symm⟩
    | cons a t =>
      simp only [List.cons_append, List.nil_append] at h
      obtain ⟨he, hl2⟩ := List.cons.inj h
      exact Or.inr ⟨t, by rw [he]; rfl, hl2.symm⟩
  | b :: l1', l, l2, h => by
    cases l with
    | nil =>
      simp only [List.nil_append, List.cons_append] at h
      obtain ⟨_, hl2⟩ := List.cons.inj h
      exact absurd hl2.symm (List.append_ne_nil_of_right_ne_nil l1' (by simp))
    | cons a t =>
      simp only [List.cons_append] at h
      obtain ⟨hab, ht⟩ := List.cons.inj h
      rcases append_singleton_split x e l1' t l2 ht with ⟨h1, h2, h3⟩ | ⟨l2', h1, h2⟩
      · exact Or.inl ⟨by rw [hab, h1], h2, h3⟩
      · exact Or.inr ⟨l2', by rw [hab, List.cons_append, h1], h2⟩

/-- One heading-pass emission preserves the distinctness invariant: the
emission check compares against all entries accumulated so far. -/
theorem distinctFrom_emitPhone (n : Nat) (title em url ph : Str)
    (acc : List Entry) (h : DistinctFrom n acc) :
    DistinctFrom n (emitPhone title em url acc ph) := by
  rw [emitPhone]
  by_cases hany : acc.any (fun e => e.phone == ph && e.name == title) = true
  · rw [if_pos hany]
    exact h
  · rw [if_neg hany]
    intro l1 e l2 heq hn e' he'
    rcases append_singleton_split _ e l1 acc l2 heq with ⟨h1, h2, _⟩ | ⟨l2', h1, _⟩
    · rw [h2]
      intro hpair
      rw [Bool.not_eq_true, List.any_eq_false] at hany
      refine hany e' (h1 ▸ he') ?_
      have hn' : e'.name = title := hpair.1
      have hp' : e'.phone = ph := hpair.2
      simp [hn', hp']
    · exact h l1 e l2' h1 hn e' he'

/-- A section of the heading pass preserves the distinctness invariant. -/
theorem distinctFrom_emitSection (n : Nat) (acc : List Entry) (sec : Str)
    (h : DistinctFrom n acc) : DistinctFrom n (emitSection acc sec) := by
  show DistinctFrom n ((findAllPhones _).foldl (emitPhone _ _ _) acc)
  exact foldl_preserve (DistinctFrom n) _ _ acc h
    (fun a b _ ha => distinctFrom_emitPhone n _ _ _ _ a ha)

/-- Claim C3 fails on the code: the second heading block's `(name, phone)`
pair was never produced by the phone-table pass (which is empty here), yet
its emission is suppressed by the first heading block's entry, so only one
entry results where the claim predicts two. -/
theorem claim_C3_counterexample :
    flatTableEntries (splitLines docDup) = [] ∧
      parseFlat docDup =
        [⟨"X".toList, "(407) 111-2222".toList, [], [], []⟩] := by
  constructor <;> decide

/-- Amended claim C3: a heading-pass entry for a `(name, phone)` pair is
skipped iff an identical pair is already among ALL entries produced so far
— by the phone-table pass or by earlier heading-pass emissions alike.
Consequently every heading-pass entry of the final flat list differs in
its `(name, phone)` pair from every entry that precedes it. -/
theorem claim_C3_theorem :
    (∀ (acc : List Entry) (title em url ph : Str),
      emitPhone title em url acc ph = acc ↔
        ∃ e ∈ acc, e.name = title ∧ e.phone = ph) ∧
    (∀ (text : Str) (l1 : List Entry) (e : Entry) (l2 : List Entry),
      parseFlat text = l1 ++ e :: l2 →
      (flatTableEntries (splitLines text)).length ≤ l1.length →
      ∀ e' ∈ l1, ¬(e'.name = e.name ∧ e'.phone = e.phone)) := by
  constructor
  · intro acc title em url ph
    rw [emitPhone]
    by_cases hany : acc.any (fun e => e.phone == ph && e.name == title) = true
    · rw [if_pos hany]
      rw [List.any_eq_true] at hany
      obtain ⟨e, he, hc⟩ := hany
      simp only [Bool.and_eq_true, beq_iff_eq] at hc
      exact iff_of_true rfl ⟨e, he, hc.2, hc.1⟩
    · rw [if_neg hany]
      constructor
      · intro habs
        exact absurd (congrArg List.length habs) (by simp)
      · intro ⟨e, he, hnm, hph⟩
        rw [Bool.not_eq_true, List.any_eq_false] at hany
        exact absurd (by simp [hnm, hph]) (hany e he)
  · intro text l1 e l2 heq hn
    have hinv : DistinctFrom (flatTableEntries (splitLines text)).length
        (parseFlat text) := by
      rw [parseFlat]
      refine foldl_preserve _ _ _ _ ?_
        (fun a b _ ha => distinctFrom_emitSection _ a b ha)
      intro m1 e0 m2 hm hlen
      have := congrArg List.length hm
      simp only [List.length_append, List.length_cons] at this
      omega
    exact hinv l1 e l2 heq hn

/-- Witness for the amended claim C3: the suppression fires against a
heading-pass entry, and a distinct pair on the same accumulated list is
emitted; the global distinctness is instantiated on a two-block document
with distinct names and a shared phone. -/
theorem claim_C3_witness :
    (emitPhone ("Fire Rescue Dept".toList) [] [] [demoE1]
        ("(407) 836-9000".toList) = [demoE1]) ∧
      ¬(emitPhone ("Other".toList) [] [] [demoE1]
        ("(407) 836-9000".toList) = [demoE1]) ∧
      ¬(demoE1.name = ("Y".toList : Str) ∧
        demoE1.phone = ("(407) 836-9000".toList : Str)) := by
  refine ⟨?_, ?_, ?_⟩
  · exact (claim_C3_theorem.1 [demoE1] ("Fire Rescue Dept".toList) [] []
      ("(407) 836-9000".toList)).2 ⟨demoE1, by decide, by decide⟩
  · intro habs
    have h := (claim_C3_theorem.1 [demoE1] ("Other".toList) [] []
      ("(407) 836-9000".toList)).1 habs
    obtain ⟨e, he, hnm, _⟩ := h
    have : e = demoE1 := by
      rcases List.mem_singleton.1 he with rfl
      rfl
    rw [this] at hnm
    exact absurd hnm (by decide)
  · intro ⟨hnm, _⟩
    exact absurd hnm (by decide)

/-! ## Lemmas on the category map -/

/-- Members of the in-place append: same key, entries possibly extended. -/
theorem mem_appendTo {k : Str} {e : Entry} {m : CatMap} {p : Str × List Entry}
    (hp : p ∈ appendTo k e m) :
    ∃ q ∈ m, p.1 = q.1 ∧ (p.2 = q.2 ∨ p.2 = q.2 ++ [e]) := by
  rw [appendTo] at hp
  obtain ⟨q, hq, rfl⟩ := List.mem_map.1 hp
  by_cases hk : (q.1 == k) = true
  · rw [if_pos hk]
    exact ⟨q, hq, rfl, Or.inr rfl⟩
  · rw [if_neg hk]
    exact ⟨q, hq, rfl, Or.inl rfl⟩

/-- Members of the in-place last-entry update: same key, entries possibly
rewritten by `modLast`. -/
theorem mem_modifyLastAt {k : Str} {f : Entry → Entry} {m : CatMap}
    {p : Str × List Entry} (hp : p ∈ modifyLastAt k f m) :
    ∃ q ∈ m, p.1 = q.1 ∧ (p.2 = q.2 ∨ p.2 = modLast f q.2) := by
  rw [modifyLastAt] at hp
  obtain ⟨q, hq, rfl⟩ := List.mem_map.1 hp
  by_cases hk : (q.1 == k) = true
  · rw [if_pos hk]
    exact ⟨q, hq, rfl, Or.inr rfl⟩
  · rw [if_neg hk]
    exact ⟨q, hq, rfl, Or.inl rfl⟩

/-- Members of `addKey`. -/
theorem mem_addKey {k : Str} {m : CatMap} {p : Str × List Entry}
    (hp : p ∈ addKey k m) : p ∈ m ∨ p = (k, []) := by
  rw [addKey] at hp
  by_cases hk : hasKey k m = true
  · rw [if_pos hk] at hp
    exact Or.inl hp
  · rw [if_neg hk] at hp
    rcases List.mem_append.1 hp with h | h
    · exact Or.inl h
    · exact Or.inr (List.mem_singleton.1 h)

/-- Members of `dictSet`. -/
theorem mem_dictSet {k : Str} {v : List Entry} {m : CatMap} {p : Str × List Entry}
    (hp : p ∈ dictSet k v m) : (p ∈ m ∧ p.1 ≠ k) ∨ p = (k, v) ∨ p ∈ m := by
  rw [dictSet] at hp
  by_cases hk : hasKey k m = true
  · rw [if_pos hk] at hp
    obtain ⟨q, hq, rfl⟩ := List.mem_map.1 hp
    by_cases hqk : (q.1 == k) = true
    · rw [if_pos hqk]
      exact Or.inr (Or.inl rfl)
    · rw [if_neg hqk]
      exact Or.inr (Or.inr hq)
  · rw [if_neg hk] at hp
    rcases List.mem_append.1 hp with h | h
    · exact Or.inr (Or.inr h)
    · exact Or.inr (Or.inl (List.mem_singleton.1 h))

/-- Members of the in-place last-entry rewrite of one list. -/
theorem mem_modLast {f : Entry → Entry} {e' : Entry} :
    ∀ {l : List Entry}, e' ∈ modLast f l → e' ∈ l ∨ ∃ e ∈ l, e' = f e := by
  intro l
  induction l with
  | nil => intro h; exact absurd h (by simp [modLast])
  | cons a t ih =>
    cases t with
    | nil =>
      intro h
      rw [show modLast f [a] = [f a] from rfl] at h
      exact Or.inr ⟨a, List.mem_singleton.2 rfl, (List.mem_singleton.1 h)⟩
    | cons b t' =>
      intro h
      rw [show modLast f (a :: b :: t') = a :: modLast f (b :: t') from rfl] at h
      rcases List.mem_cons.1 h with rfl | h'
      · exact Or.inl (List.mem_cons_self _ _)
      · rcases ih h' with h1 | ⟨e, he, h2⟩
        · exact Or.inl (List.mem_cons_of_mem a h1)
        · exact Or.inr ⟨e, List.mem_cons_of_mem a he, h2⟩

/-- Rewriting the last element, explicitly. -/
theorem modLast_getLast (f : Entry → Entry) :
    ∀ (l : List Entry) (e : Entry), l.getLast? = some e →
      modLast f l = l.dropLast ++ [f e]
  | [], e, h => by simp at h
  | [a], e, h => by
    simp only [List.getLast?_singleton, Option.some_inj] at h
    rw [← h]
    rfl
  | a :: b :: t, e, h => by
    rw [List.getLast?_cons_cons] at h
    show a :: modLast f (b :: t) = (a :: b :: t).dropLast ++ [f e]
    rw [modLast_getLast f (b :: t) e h]
    rfl

/-- Keys reachable after one scan step: an old key or a fresh non-skipped
level-2 heading. -/
theorem catStep_keys (st : CatState) (line : Str) {p : Str × List Entry}
    (hp : p ∈ (catStep st line).cats) :
    (∃ q ∈ st.cats, p.1 = q.1) ∨
      ∃ catName, h2Name line = some catName ∧ isSkipSection catName = false ∧
        p.1 = catName := by
  rw [catStep] at hp
  split at hp
  · rename_i catName hh2
    split at hp
    · exact Or.inl ⟨p, hp, rfl⟩
    · rename_i hskip
      rcases mem_addKey hp with h | h
      · exact Or.inl ⟨p, h, rfl⟩
      · exact Or.inr ⟨catName, hh2, by simpa using hskip, by rw [h]⟩
  · split at hp
    · split at hp
      · split at hp
        · exact Or.inl ⟨p, hp, rfl⟩
        · obtain ⟨q, hq, hfst, _⟩ := mem_appendTo hp
          exact Or.inl ⟨q, hq, hfst⟩
      · exact Or.inl ⟨p, hp, rfl⟩
    · split at hp
      · split at hp
        · split at hp
          · exact Or.inl ⟨p, hp, rfl⟩
          · obtain ⟨q, hq, hfst, _⟩ := mem_appendTo hp
            exact Or.inl ⟨q, hq, hfst⟩
        · exact Or.inl ⟨p, hp, rfl⟩
      · split at hp
        · split at hp
          · obtain ⟨q, hq, hfst, _⟩ := mem_modifyLastAt hp
            exact Or.inl ⟨q, hq, hfst⟩
          · exact Or.inl ⟨p, hp, rfl⟩
        · exact Or.inl ⟨p, hp, rfl⟩

/-- No key of the primary scan is in the exclusion set. -/
theorem primaryCats_not_skip (lines : List Str) :
    ∀ p ∈ primaryCats lines, isSkipSection p.1 = false := by
  rw [primaryCats]
  have : ∀ st : CatState, (∀ p ∈ st.cats, isSkipSection p.1 = false) →
      ∀ p ∈ (lines.foldl catStep st).cats, isSkipSection p.1 = false := by
    intro st h0
    have := foldl_preserve
      (fun st : CatState => ∀ p ∈ st.cats, isSkipSection p.1 = false)
      catStep lines st h0 ?_
    · exact this
    · intro a b _ ha p hp
      rcases catStep_keys a b hp with ⟨q, hq, hfst⟩ | ⟨catName, _, hns, hfst⟩
      · rw [hfst]
        exact ha q hq
      · rw [hfst]
        exact hns
  exact this ⟨[], none⟩ (by intro p hp; exact absurd hp (by simp))

/-- If no element of the front satisfies the predicate, `find?` skips it. -/
theorem find?_append_of_none {α : Type} (p : α → Bool) :
    ∀ (l1 l2 : List α), l1.find? p = none → (l1 ++ l2).find? p = l2.find? p
  | [], l2, _ => rfl
  | a :: t, l2, h => by
    rw [List.find?_cons] at h
    by_cases ha : p a = true
    · rw [ha] at h
      exact absurd h (by simp)
    · rw [List.cons_append, List.find?_cons]
      rw [Bool.not_eq_true] at ha
      rw [ha] at h ⊢
      exact find?_append_of_none p t l2 h

/-- A key absent from every member yields no value. -/
theorem getVal_eq_none {k : Str} {m : CatMap} (h : ∀ p ∈ m, ¬(p.1 = k)) :
    getVal k m = none := by
  rw [getVal]
  have : m.find? (fun p => p.1 == k) = none :=
    List.find?_eq_none.2 (fun p hp => by simpa using h p hp)
  rw [this]
  rfl

/-- Claim C7: every category of the returned mapping is non-empty; no
excluded heading is a key of the primary scan; `Table of Contents` and
`Overview & Main Sites` never appear in the result; the phone-directory
heading appears exactly as its synthetic table-derived category, and only
when that table yields at least one entry. -/
theorem claim_C7_theorem (text : Str) :
    (∀ p ∈ parseCats text, p.2 ≠ []) ∧
      (∀ p ∈ primaryCats (splitLines text), isSkipSection p.1 = false) ∧
      (∀ p ∈ parseCats text, p.1 ≠ tocName ∧ p.1 ≠ ovrName) ∧
      getVal cpdMark (parseCats text) =
        (if phoneDirEntries (splitLines text) = [] then none
         else some (phoneDirEntries (splitLines text))) := by
  have hskip := primaryCats_not_skip (splitLines text)
  have hwithFb : ∀ p ∈ (primaryCats (splitLines text)).map
      (fun p => if p.2.isEmpty then (p.1, fallbackEntries p.1 (splitLines text)) else p),
      isSkipSection p.1 = false := by
    intro p hp
    obtain ⟨q, hq, rfl⟩ := List.mem_map.1 hp
    by_cases hqe : q.2.isEmpty = true
    · rw [if_pos hqe]
      exact hskip q hq
    · rw [if_neg hqe]
      exact hskip q hq
  have hmemPd : ∀ p ∈ parseCats text,
      isSkipSection p.1 = false ∨ p = (cpdMark, phoneDirEntries (splitLines text)) := by
    intro p hp
    rw [parseCats] at hp
    have hp' := List.mem_of_mem_filter hp
    by_cases hpe : (phoneDirEntries (splitLines text)).isEmpty = true
    · rw [if_pos hpe] at hp'
      exact Or.inl (hwithFb p hp')
    · rw [if_neg hpe] at hp'
      rcases mem_dictSet hp' with ⟨h, _⟩ | h | h
      · exact Or.inl (hwithFb p h)
      · exact Or.inr h
      · exact Or.inl (hwithFb p h)
  refine ⟨?_, hskip, ?_, ?_⟩
  · intro p hp
    rw [parseCats] at hp
    have := List.of_mem_filter hp
    simpa using this
  · intro p hp
    rcases hmemPd p hp with h | h
    · constructor
      · intro habs
        rw [habs] at h
        exact absurd h (by decide)
      · intro habs
        rw [habs] at h
        exact absurd h (by decide)
    · have h1 : p.1 = cpdMark := by rw [h]
      rw [h1]
      exact ⟨by decide, by decide⟩
  · have hnokeyFb : ∀ p ∈ (primaryCats (splitLines text)).map
        (fun p => if p.2.isEmpty then (p.1, fallbackEntries p.1 (splitLines text)) else p),
        ¬(p.1 = cpdMark) := by
      intro p hp habs
      have := hwithFb p hp
      rw [habs] at this
      exact absurd this (by decide)
    by_cases hpe : (phoneDirEntries (splitLines text)).isEmpty = true
    · rw [if_pos (by simpa using hpe)]
      apply getVal_eq_none
      intro p hp habs
      rcases hmemPd p (by rw [parseCats]; exact hp) with h | h
      · rw [habs] at h
        exact absurd h (by decide)
      · have hp2 : p.2 ≠ [] := by
          rw [parseCats] at hp
          simpa using List.of_mem_filter hp
        rw [h] at hp2
        exact hp2 (by simpa using hpe)
    · rw [if_neg (by simpa using hpe)]
      rw [parseCats]
      simp only [if_neg hpe]
      rw [dictSet, if_neg ?hkey]
      case hkey =>
        intro habs
        rw [hasKey, List.any_eq_true] at habs
        obtain ⟨p, hp, hpk⟩ := habs
        exact hnokeyFb p hp (by simpa using hpk)
      rw [List.filter_append]
      rw [getVal, find?_append_of_none _ _ _ ?hnone]
      case hnone =>
        apply List.find?_eq_none.2
        intro p hp habs
        exact hnokeyFb p (List.mem_of_mem_filter hp) (by simpa using habs)
      have : (([(cpdMark, phoneDirEntries (splitLines text))] : CatMap).filter
          (fun p => !p.2.isEmpty)) = [(cpdMark, phoneDirEntries (splitLines text))] := by
        rw [List.filter_cons, if_pos (by simpa using hpe)]
        rfl
      rw [this]
      rfl

/-- Witness for claim C7 on a concrete document: the synthetic
phone-directory category carries exactly the table rows, and the one
primary-scan key is not in the exclusion set. -/
theorem claim_C7_witness :
    getVal cpdMark (parseCats docCats) =
        some [⟨"Fire".toList, "(407) 836-9000".toList, [], [], []⟩] ∧
      isSkipSection (("Utilities".toList,
        [(⟨"Solid Waste".toList, [], [], [], []⟩ : Entry)]) : Str × List Entry).1 =
        false := by
  have h := claim_C7_theorem docCats
  constructor
  · rw [h.2.2.2]
    decide
  · exact h.2.1 _ (by decide)

/-! ## Claim C8 -/

/-- The value of the updated key after an in-place last-entry update. -/
theorem getVal_modifyLastAt (k : Str) (f : Entry → Entry) :
    ∀ m : CatMap, getVal k (modifyLastAt k f m) = (getVal k m).map (modLast f)
  | [] => rfl
  | q :: t => by
    by_cases hk : (q.1 == k) = true
    · rw [modifyLastAt, List.map_cons, if_pos hk]
      simp only [getVal, List.find?_cons]
      simp [hk]
    · have hk' : (q.1 == k) = false := by simpa using hk
      rw [modifyLastAt, List.map_cons, if_neg hk]
      simp only [getVal, List.find?_cons]
      simp only [hk']
      exact getVal_modifyLastAt k f t

/-- Pairs under other keys are untouched by the in-place update. -/
theorem mem_modifyLastAt_of_ne {k : Str} {f : Entry → Entry} {m : CatMap}
    {p : Str × List Entry} (hp : p ∈ m) (hne : ¬(p.1 = k)) :
    p ∈ modifyLastAt k f m := by
  rw [modifyLastAt]
  have heq : (if p.1 == k then (p.1, modLast f p.2) else p) = p := by
    rw [if_neg (by simpa using hne)]
  exact heq ▸ List.mem_map_of_mem _ hp

/-- On a line that is no heading and no Board-of-County-Commissioners table
row, the scan step reduces to the enrichment branch. -/
theorem catStep_other (st : CatState) (line : Str)
    (h2 : h2Name line = none) (h3 : h3Name line = none)
    (hb : bccTableCond st line = false) :
    catStep st line =
      (match st.current with
       | some c =>
         if !c.isEmpty && !((getVal c st.cats).getD []).isEmpty then
           { st with cats := modifyLastAt c (enrich line) st.cats }
         else st
       | none => st) := by
  rw [catStep, h2, h3, hb]
  rfl

/-- Enrichment never changes the name. -/
theorem enrich_name (line : Str) (e : Entry) : (enrich line e).name = e.name := rfl

/-- A set phone field is never overwritten. -/
theorem enrich_phone_set (line : Str) (e : Entry) (h : e.phone ≠ []) :
    (enrich line e).phone = e.phone := by
  show (match findPhone line with
    | some p => if e.phone.isEmpty then p else e.phone
    | none => e.phone) = e.phone
  cases findPhone line with
  | some p => simp [List.isEmpty_iff, h]
  | none => rfl

/-- A set email field is never overwritten. -/
theorem enrich_email_set (line : Str) (e : Entry) (h : e.email ≠ []) :
    (enrich line e).email = e.email := by
  show (match findEmail line with
    | some m => if e.email.isEmpty then m else e.email
    | none => e.email) = e.email
  cases findEmail line with
  | some m => simp [List.isEmpty_iff, h]
  | none => rfl

/-- A set url field is never overwritten. -/
theorem enrich_url_set (line : Str) (e : Entry) (h : e.url ≠ []) :
    (enrich line e).url = e.url := by
  show (match findUrl exclCat line with
    | some u => if e.url.isEmpty then u else e.url
    | none => e.url) = e.url
  cases findUrl exclCat line with
  | some u => simp [List.isEmpty_iff, h]
  | none => rfl

/-- A set address field is never overwritten. -/
theorem enrich_address_set (line : Str) (e : Entry) (h : e.address ≠ []) :
    (enrich line e).address = e.address := by
  show (match addrValue line with
    | some a => if e.address.isEmpty then a else e.address
    | none => e.address) = e.address
  cases addrValue line with
  | some a => simp [List.isEmpty_iff, h]
  | none => rfl

/-- Claim C8: during the primary scan, a non-heading, non-table line leaves
the category cursor unchanged; it changes nothing at all unless a category
is active (with a truthy name) and already holds at least one entry; the
enrichment rewrites only the last entry of the active category through
`enrich`, which preserves the name and never overwrites a set phone,
email, url or address field; every pair under a different key survives
unchanged. -/
theorem claim_C8_theorem (st : CatState) (line : Str)
    (h2 : h2Name line = none) (h3 : h3Name line = none)
    (hb : bccTableCond st line = false) :
    ((catStep st line).current = st.current) ∧
      (st.current = none → catStep st line = st) ∧
      (∀ c, st.current = some c → c = [] → catStep st line = st) ∧
      (∀ c, st.current = some c → (getVal c st.cats).getD [] = [] →
        catStep st line = st) ∧
      (∀ e, (enrich line e).name = e.name) ∧
      (∀ e, e.phone ≠ [] → (enrich line e).phone = e.phone) ∧
      (∀ e, e.email ≠ [] → (enrich line e).email = e.email) ∧
      (∀ e, e.url ≠ [] → (enrich line e).url = e.url) ∧
      (∀ e, e.address ≠ [] → (enrich line e).address = e.address) ∧
      (∀ c, st.current = some c → ∀ p ∈ st.cats, ¬(p.1 = c) →
        p ∈ (catStep st line).cats) ∧
      (∀ c v e, st.current = some c → ¬(c = []) → getVal c st.cats = some v →
        v.getLast? = some e →
        getVal c (catStep st line).cats =
          some (v.dropLast ++ [enrich line e])) := by
  have hred := catStep_other st line h2 h3 hb
  refine ⟨?_, ?_, ?_, ?_, enrich_name line, enrich_phone_set line,
    enrich_email_set line, enrich_url_set line, enrich_address_set line, ?_, ?_⟩
  · rw [hred]
    split
    · split
      · rfl
      · rfl
    · rfl
  · intro hcur
    rw [hred, hcur]
  · intro c hcur hc
    rw [hred, hcur, hc]
    show (if !(List.isEmpty ([] : Str)) && !((getVal [] st.cats).getD []).isEmpty then
      { cats := modifyLastAt [] (enrich line) st.cats, current := some [] } else st) = st
    rw [if_neg (by simp)]
  · intro c hcur hval
    rw [hred, hcur]
    show (if !c.isEmpty && !((getVal c st.cats).getD []).isEmpty then
      { cats := modifyLastAt c (enrich line) st.cats, current := some c } else st) = st
    rw [if_neg (by simp [hval])]
  · intro c hcur p hp hne
    rw [hred, hcur]
    show p ∈ (if !c.isEmpty && !((getVal c st.cats).getD []).isEmpty then
      { cats := modifyLastAt c (enrich line) st.cats, current := some c } else st).cats
    by_cases hc : (!c.isEmpty && !((getVal c st.cats).getD []).isEmpty) = true
    · rw [if_pos hc]
      exact mem_modifyLastAt_of_ne hp hne
    · rw [if_neg hc]
      exact hp
  · intro c v e hcur hc hval hlast
    have hv : v ≠ [] := by
      intro habs
      rw [habs] at hlast
      exact absurd hlast (by simp)
    rw [hred, hcur]
    show getVal c (if !c.isEmpty && !((getVal c st.cats).getD []).isEmpty then
      { cats := modifyLastAt c (enrich line) st.cats, current := some c } else st).cats = _
    rw [if_pos]
    · show getVal c (modifyLastAt c (enrich line) st.cats) = _
      rw [getVal_modifyLastAt, hval]
      rw [Option.map_some']
      rw [modLast_getLast (enrich line) v e hlast]
    · rw [hval]
      simp [List.isEmpty_iff, hc, hv]

/-- Witness for claim C8: the free line keeps the cursor and rewrites
exactly the last (only) entry of the active category through `enrich`. -/
theorem claim_C8_witness :
    (catStep demoCatSt demoLine).current = demoCatSt.current ∧
      getVal ("Utilities".toList) (catStep demoCatSt demoLine).cats =
        some (([demoSW] : List Entry).dropLast ++ [enrich demoLine demoSW]) := by
  have h := claim_C8_theorem demoCatSt demoLine (by decide) (by decide) (by decide)
  exact ⟨h.1, h.2.2.2.2.2.2.2.2.2.2 ("Utilities".toList) [demoSW] demoSW
    rfl (by decide) (by decide) rfl⟩

/-! ## Claim C2 -/

/-- Claim C2 fails on the code: the flat phone-table pass has no
non-emptiness check on the first cell (unlike the categorized passes), so
a table row with a blank first column yields an entry with an empty
name. -/
theorem claim_C2_counterexample :
    parseFlat docBlank = [⟨[], "(407) 836-9000".toList, [], [], []⟩] ∧
      (⟨[], "(407) 836-9000".toList, [], [], []⟩ : Entry).name = [] := by
  constructor <;> decide

/-- Projection of `goodLine`: pipe rows have a non-blank first cell. -/
theorem goodLine_pipe {l a : Str} {rest : List Str}
    (hg : goodLine l = true) (h : pipeCells l = a :: rest) : a ≠ [] := by
  rw [goodLine] at hg
  simp only [Bool.and_eq_true] at hg
  have h1 := hg.1.1.1
  rw [h] at h1
  simpa [List.isEmpty_iff] using h1

/-- Projection of `goodLine`: level-3 headings strip to non-blank text. -/
theorem goodLine_h3 {l n : Str} (hg : goodLine l = true)
    (h : h3Name l = some n) : n ≠ [] := by
  rw [goodLine] at hg
  simp only [Bool.and_eq_true] at hg
  have h1 := hg.1.1.2
  rw [h] at h1
  simpa [List.isEmpty_iff] using h1

/-- Projection of `goodLine`: link texts strip to non-blank text. -/
theorem goodLine_link {l nm u : Str} (hg : goodLine l = true)
    (h : linkParts l = some (nm, u)) : pyStrip nm ≠ [] := by
  rw [goodLine] at hg
  simp only [Bool.and_eq_true] at hg
  have h1 := hg.1.2
  rw [h] at h1
  simpa [List.isEmpty_iff] using h1

/-- Projection of `goodLine`: bullet texts strip to non-blank text. -/
theorem goodLine_bullet {l g : Str} (hg : goodLine l = true)
    (h : bulletName l = some g) : stripStars (pyStrip g) ≠ [] := by
  rw [goodLine] at hg
  simp only [Bool.and_eq_true] at hg
  have h1 := hg.2
  rw [h] at h1
  simpa [List.isEmpty_iff] using h1

/-- `splitP` never returns the empty list. -/
theorem splitP_ne_nil (p : Char → Bool) : ∀ s : Str, splitP p s ≠ []
  | [] => by simp [splitP]
  | c :: t => by
    rw [splitP]
    by_cases hc : p c = true
    · rw [if_pos hc]
      simp
    · rw [if_neg hc]
      cases h : splitP p t with
      | nil => simp
      | cons a r => simp

/-- The first piece of a split starting with a non-separator character. -/
theorem splitP_headD (p : Char → Bool) (c : Char) (t : Str) (hc : p c = false) :
    (splitP p (c :: t)).headD [] = c :: (splitP p t).headD [] := by
  rw [splitP, if_neg (by simp [hc])]
  cases h : splitP p t with
  | nil => exact absurd h (splitP_ne_nil p t)
  | cons a r => rfl

/-- The head surviving `dropWhile` fails the predicate. -/
theorem dropWhile_head_not (p : Char → Bool) :
    ∀ {s : Str} {c : Char} {t : Str}, s.dropWhile p = c :: t → p c = false := by
  intro s
  induction s with
  | nil => intro c t h; simp at h
  | cons a s' ih =>
    intro c t h
    rw [List.dropWhile_cons] at h
    by_cases ha : p a = true
    · rw [if_pos ha] at h
      exact ih h
    · rw [if_neg ha] at h
      obtain ⟨rfl, _⟩ := List.cons.inj h
      simpa using ha

/-- `pyStrip` through Mathlib's right-strip. -/
theorem pyStrip_eq_rdrop (s : Str) :
    pyStrip s = List.rdropWhile isWsC (s.dropWhile isWsC) := rfl

/-- The head of a stripped string is not whitespace. -/
theorem pyStrip_head_not_ws {s : Str} {c : Char} {t : Str}
    (h : pyStrip s = c :: t) : isWsC c = false := by
  have hpre := List.rdropWhile_prefix isWsC (l := s.dropWhile isWsC)
  rw [← pyStrip_eq_rdrop] at hpre
  obtain ⟨r, hr⟩ := hpre
  have hdw : s.dropWhile isWsC = c :: (t ++ r) := by
    rw [← hr, h]
    rfl
  exact dropWhile_head_not isWsC hdw

/-- Stripping a string led by a non-whitespace character is non-empty. -/
theorem pyStrip_ne_nil {c : Char} {t : Str} (hc : isWsC c = false) :
    pyStrip (c :: t) ≠ [] := by
  rw [pyStrip_eq_rdrop]
  rw [List.dropWhile_cons, if_neg (by simp [hc])]
  intro habs
  rw [List.rdropWhile_eq_nil_iff] at habs
  have := habs c (List.mem_cons_self c t)
  rw [hc] at this
  exact absurd this (by simp)

/-- The title a non-blank section strips to is non-empty: stripping
removes leading whitespace (including newlines), so the first line of the
stripped capture starts with a non-whitespace character. -/
theorem emitSection_title_ne_nil {sec : Str} (h : pyStrip sec ≠ []) :
    pyStrip ((splitLines (pyStrip sec)).headD []) ≠ [] := by
  cases hs : pyStrip sec with
  | nil => exact absurd hs h
  | cons c t =>
    have hc : isWsC c = false := pyStrip_head_not_ws hs
    have hcn : (c == '\n') = false := by
      by_cases hcc : c = '\n'
      · rw [hcc] at hc
        exact absurd hc (by decide)
      · simp [hcc]
    rw [splitLines, splitP_headD _ c t hcn]
    exact pyStrip_ne_nil hc

/-- A heading-pass emission with a non-empty title preserves non-empty
names. -/
theorem emitPhone_names {title em url ph : Str} {acc : List Entry}
    (ht : title ≠ []) (h : ∀ e ∈ acc, e.name ≠ []) :
    ∀ e ∈ emitPhone title em url acc ph, e.name ≠ [] := by
  intro e he
  rw [emitPhone] at he
  by_cases hany : acc.any (fun e => e.phone == ph && e.name == title) = true
  · rw [if_pos hany] at he
    exact h e he
  · rw [if_neg hany] at he
    rcases List.mem_append.1 he with h1 | h1
    · exact h e h1
    · rw [List.mem_singleton.1 h1]
      exact ht

/-- A heading-pass section preserves non-empty names unconditionally:
either the capture strips to nothing (then the body is empty and nothing
is emitted) or the title is non-empty. -/
theorem emitSection_names (acc : List Entry) (sec : Str)
    (h : ∀ e ∈ acc, e.name ≠ []) : ∀ e ∈ emitSection acc sec, e.name ≠ [] := by
  by_cases hs : pyStrip sec = []
  · have heq : emitSection acc sec = acc := by
      simp only [emitSection]
      rw [hs]
      rfl
    rw [heq]
    exact h
  · have ht := emitSection_title_ne_nil hs
    show ∀ e ∈ List.foldl (emitPhone _ _ _) acc _, e.name ≠ []
    exact foldl_preserve (fun l : List Entry => ∀ e ∈ l, e.name ≠ []) _ _ acc h
      (fun a b _ ha => emitPhone_names ht ha)

/-- The flat phone-table pass preserves non-empty names on good lines. -/
theorem flatTableStep_names {st : Bool × List Entry} {line : Str}
    (hline : goodLine line = true) (h : ∀ e ∈ st.2, e.name ≠ []) :
    ∀ e ∈ (flatTableStep st line).2, e.name ≠ [] := by
  rw [flatTableStep]
  split
  · exact h
  · split
    · split
      · rename_i a b rest heq
        intro e he
        rcases List.mem_append.1 he with h1 | h1
        · exact h e h1
        · rw [List.mem_singleton.1 h1]
          exact goodLine_pipe hline heq
      · exact h
    · exact h

/-- The primary scan step preserves non-empty names on good lines. -/
theorem catStep_names {st : CatState} {line : Str}
    (hline : goodLine line = true)
    (h : ∀ p ∈ st.cats, ∀ e ∈ p.2, e.name ≠ []) :
    ∀ p ∈ (catStep st line).cats, ∀ e ∈ p.2, e.name ≠ [] := by
  intro p hp
  rw [catStep] at hp
  split at hp
  · split at hp
    · exact h p hp
    · rcases mem_addKey hp with h1 | h1
      · exact h p h1
      · rw [h1]
        intro e he
        exact absurd he (by simp)
  · split at hp
    · rename_i entryName hh3
      split at hp
      · split at hp
        · exact h p hp
        · obtain ⟨q, hq, _, h2⟩ := mem_appendTo hp
          rcases h2 with h2 | h2
          · rw [h2]
            exact h q hq
          · rw [h2]
            intro e he
            rcases List.mem_append.1 he with h3 | h3
            · exact h q hq e h3
            · rw [List.mem_singleton.1 h3]
              exact goodLine_h3 hline hh3
      · exact h p hp
    · split at hp
      · split at hp
        · rename_i a b rest heqcells
          split at hp
          · exact h p hp
          · obtain ⟨q, hq, _, h2⟩ := mem_appendTo hp
            rcases h2 with h2 | h2
            · rw [h2]
              exact h q hq
            · rw [h2]
              intro e he
              rcases List.mem_append.1 he with h3 | h3
              · exact h q hq e h3
              · rw [List.mem_singleton.1 h3]
                show a ++ " — ".toList ++ b ≠ []
                intro habs
                have hlen := congrArg List.length habs
                simp only [List.length_append, List.length_nil,
                  show (" — ".toList).length = 3 from rfl] at hlen
                omega
        · exact h p hp
      · split at hp
        · split at hp
          · obtain ⟨q, hq, _, h2⟩ := mem_modifyLastAt hp
            rcases h2 with h2 | h2
            · rw [h2]
              exact h q hq
            · rw [h2]
              intro e he
              rcases mem_modLast he with h3 | ⟨e0, he0, rfl⟩
              · exact h q hq e h3
              · rw [enrich_name]
                exact h q hq e0 he0
          · exact h p hp
        · exact h p hp

/-- All primary-scan entries have non-empty names on good documents. -/
theorem primaryCats_names (lines : List Str)
    (hg : ∀ l ∈ lines, goodLine l = true) :
    ∀ p ∈ primaryCats lines, ∀ e ∈ p.2, e.name ≠ [] := by
  rw [primaryCats]
  exact foldl_preserve
    (fun st : CatState => ∀ p ∈ st.cats, ∀ e ∈ p.2, e.name ≠ [])
    catStep lines ⟨[], none⟩ (by intro p hp; exact absurd hp (by simp))
    (fun a b hb ha => catStep_names (hg b hb) ha)

/-- Block lines are lines of the document. -/
theorem mem_blockLinesFor {k : Str} {lines : List Str} {x : Str}
    (hx : x ∈ blockLinesFor k lines) : x ∈ lines := by
  rw [blockLinesFor] at hx
  split at hx
  · exact absurd hx (by simp)
  · rename_i i hi
    split at hx
    · exact absurd hx (by simp)
    · rename_i a t heq
      have hsub1 : List.Sublist (a :: t) (lines.drop (i + 1)) :=
        heq ▸ List.dropWhile_sublist _
      have hx' : x ∈ a :: t := by
        rcases List.mem_cons.1 hx with rfl | h1
        · exact List.mem_cons_self _ _
        · exact List.mem_cons_of_mem a ((List.takeWhile_sublist _).subset h1)
      exact (List.drop_sublist (i + 1) lines).subset (hsub1.subset hx')

/-- Fallback entries of a good line have non-empty names. -/
theorem fallbackLineEntries_names {bl : Str} (hg : goodLine bl = true) :
    ∀ e ∈ fallbackLineEntries bl, e.name ≠ [] := by
  intro e he
  rw [fallbackLineEntries] at he
  split at he
  · rename_i nm urlg hlink
    rw [List.mem_singleton.1 he]
    exact goodLine_link hg hlink
  · split at he
    · split at he
      · rename_i a rest hcells
        split at he
        · exact absurd he (by simp)
        · rename_i ha
          rw [List.mem_singleton.1 he]
          show a ≠ []
          simpa [List.isEmpty_iff] using ha
      · exact absurd he (by simp)
    · split at he
      · rename_i g hbul
        rw [List.mem_singleton.1 he]
        exact goodLine_bullet hg hbul
      · exact absurd he (by simp)

/-- Fallback entries of a good document have non-empty names. -/
theorem fallbackEntries_names {k : Str} {lines : List Str}
    (hg : ∀ l ∈ lines, goodLine l = true) :
    ∀ e ∈ fallbackEntries k lines, e.name ≠ [] := by
  rw [fallbackEntries]
  exact foldl_preserve (fun l : List Entry => ∀ e ∈ l, e.name ≠ []) _ _ []
    (by intro e he; exact absurd he (by simp))
    (fun a bl hbl ha => by
      intro e he
      rcases List.mem_append.1 he with h1 | h1
      · exact ha e h1
      · exact fallbackLineEntries_names (hg bl (mem_blockLinesFor hbl)) e h1)

/-- Synthetic phone-directory entries always have non-empty names (the
source guards the first cell here). -/
theorem phoneDirEntries_names (lines : List Str) :
    ∀ e ∈ phoneDirEntries lines, e.name ≠ [] := by
  rw [phoneDirEntries]
  refine foldl_preserve (fun l : List Entry => ∀ e ∈ l, e.name ≠ []) _ _ []
    (by intro e he; exact absurd he (by simp)) ?_
  intro acc pl _ ha e he
  split at he
  · split at he
    · rename_i a b rest heq
      split at he
      · exact ha e he
      · rename_i hae
        rcases List.mem_append.1 he with h1 | h1
        · exact ha e h1
        · rw [List.mem_singleton.1 h1]
          show a ≠ []
          simpa [List.isEmpty_iff] using hae
    · exact ha e he
  · exact ha e he

/-- Categories after the fallback pass keep non-empty names. -/
theorem withFb_names (text : Str)
    (hg : ∀ l ∈ splitLines text, goodLine l = true) :
    ∀ p ∈ (primaryCats (splitLines text)).map
      (fun p => if p.2.isEmpty then (p.1, fallbackEntries p.1 (splitLines text)) else p),
      ∀ e ∈ p.2, e.name ≠ [] := by
  intro p hp
  obtain ⟨q, hq, rfl⟩ := List.mem_map.1 hp
  by_cases hqe : q.2.isEmpty = true
  · rw [if_pos hqe]
    intro e he
    exact fallbackEntries_names hg e he
  · rw [if_neg hqe]
    exact primaryCats_names (splitLines text) hg q hq

/-- Amended claim C2: for every source document in which no pipe row has a
blank first cell, no level-3 heading strips to nothing, no markdown link
text strips to nothing and no bullet text strips to nothing, every entry
produced by the flat extractor and every entry in every category produced
by the categorized extractor has a non-empty name. (Without the side
condition the flat phone-table pass, the level-3 heading rule, the link
rule and the bullet rule can each produce an empty name; the counterexample
shows the phone-table case.) -/
theorem claim_C2_theorem (text : Str) (hg : goodDoc text = true) :
    (∀ e ∈ parseFlat text, e.name ≠ []) ∧
      (∀ p ∈ parseCats text, ∀ e ∈ p.2, e.name ≠ []) := by
  have hlines : ∀ l ∈ splitLines text, goodLine l = true := by
    rw [goodDoc, List.all_eq_true] at hg
    exact hg
  constructor
  · rw [parseFlat]
    refine foldl_preserve (fun l : List Entry => ∀ e ∈ l, e.name ≠ []) emitSection _
      (flatTableEntries (splitLines text)) ?_
      (fun a b _ ha => emitSection_names a b ha)
    rw [flatTableEntries]
    exact foldl_preserve (fun st : Bool × List Entry => ∀ e ∈ st.2, e.name ≠ [])
      flatTableStep _ (false, []) (by intro e he; exact absurd he (by simp))
      (fun a b hb ha => flatTableStep_names (hlines b hb) ha)
  · intro p hp
    rw [parseCats] at hp
    have hp' := List.mem_of_mem_filter hp
    by_cases hpe : (phoneDirEntries (splitLines text)).isEmpty = true
    · rw [if_pos hpe] at hp'
      exact withFb_names text hlines p hp'
    · rw [if_neg hpe] at hp'
      rcases mem_dictSet hp' with ⟨h1, _⟩ | h1 | h1
      · exact withFb_names text hlines p h1
      · rw [h1]
        intro e he
        exact phoneDirEntries_names (splitLines text) e he
      · exact withFb_names text hlines p h1

/-- Witness for the amended claim C2 on a concrete good document. -/
theorem claim_C2_witness :
    goodDoc docFire = true ∧
      (⟨"Fire Rescue".toList, "(407) 836-9000".toList, [], [], []⟩ : Entry).name ≠
        [] := by
  refine ⟨by decide, ?_⟩
  exact (claim_C2_theorem docFire (by decide)).1 _ (by decide)

end OCFL
